import Mathlib

/-!
# Verification of the Besu cloud-network artifact generation pipeline

Shallow embedding of `src/deployment/cloud/setup.py`.  Python strings are
modelled as `List Char`, byte strings as `List Nat` (each element `< 256`),
Python dicts with string keys as insertion-ordered association lists.
The external `eth_keys` / `eth_utils` library is modelled at its interface
boundary: key validation follows the library's documented contract, and the
public-key / address derivations are abstract parameters of the pipeline.
-/

namespace BesuSetup

/-! ## Hex encoding utilities -/

/-- Value of one hex digit character, `none` for a non-hex character. -/
def hexDigitToNat (c : Char) : Option Nat :=
  if '0' ≤ c ∧ c ≤ '9' then some (c.toNat - '0'.toNat)
  else if 'a' ≤ c ∧ c ≤ 'f' then some (c.toNat - 'a'.toNat + 10)
  else if 'A' ≤ c ∧ c ≤ 'F' then some (c.toNat - 'A'.toNat + 10)
  else none

/-- Lower-case hex digit character for a value below 16
(Python's `bytes.hex()` emits lower case). -/
def natToHexDigit (n : Nat) : Char :=
  if n < 10 then Char.ofNat ('0'.toNat + n) else Char.ofNat ('a'.toNat + n - 10)

/-- Two lower-case hex characters for one byte, as `bytes.hex()` renders it. -/
def byteToHex (b : Nat) : List Char :=
  [natToHexDigit (b / 16), natToHexDigit (b % 16)]

/-- `bytes.hex()`: lower-case hex rendering of a byte string. -/
def bytesToHex (bs : List Nat) : List Char :=
  bs.flatMap byteToHex

/-- `bytes.fromhex`: parse a hex string (of even length) into bytes. -/
def hexToBytes : List Char → Option (List Nat)
  | [] => some []
  | c1 :: c2 :: rest =>
    match hexDigitToNat c1, hexDigitToNat c2, hexToBytes rest with
    | some h, some l, some bs => some ((16 * h + l) :: bs)
    | _, _, _ => none
  | [_] => none

/-- A well-formed byte string: every element is a byte value. -/
def ValidBytes (bs : List Nat) : Prop := ∀ b ∈ bs, b < 256

/-! ## Configuration constants (`setup.py`, module level) -/

def NUM_VALIDATORS : Nat := 4

def NUM_TOTAL_NODES : Nat := NUM_VALIDATORS + 1

def CHAIN_ID : Nat := 1337

def INITIAL_BALANCE : List Char := "0x1000000000000000000000".data

/-- The default `NODE_IPS` table (index → host). The functions below take the
table as a parameter, standing for the value of this global at run time. -/
def NODE_IPS : List (List Char) :=
  ["192.168.1.11".data, "192.168.1.12".data, "192.168.1.13".data,
   "192.168.1.14".data, "192.168.1.15".data]

/-! ## Errors

Python exceptions surfaced by the script: an out-of-range list subscript
(`IndexError`) and the eth-keys key-validation failure (`ValidationError`). -/

inductive PyError where
  | indexError
  | validationError
deriving DecidableEq, Repr

/-! ## Validator identities (`generate_validator_keys`) -/

/-- One element of the `validators` list built by `generate_validator_keys`:
a Python dict with keys `index`, `address`, `private_key`, `public_key`. -/
structure Validator where
  index : Nat
  address : List Char
  private_key : List Char
  public_key : List Char
deriving DecidableEq, Repr, Inhabited

/-- Order of the secp256k1 curve, the bound the eth-keys library enforces on
private keys. -/
def SECP256K1_ORDER : Nat :=
  0xFFFFFFFFFFFFFFFFFFFFFFFFFFFFFFFEBAAEDCE6AF48A03BBFD25E8CD0364141

/-- Big-endian integer value of a byte string. -/
def bytesToNatBE (bs : List Nat) : Nat :=
  bs.foldl (fun acc b => acc * 256 + b) 0

/-- Interface of the external `eth_keys` / `eth_utils` elliptic-curve
library: derivation of the 64-byte public key from the 32-byte private key,
of the 20-byte address from the public key, and the checksum-cased
`0x`-prefixed rendering of an address (`to_checksum_address`). The pipeline
is parametric in these derivations (they are library code, not repository
code). -/
structure EthCrypto where
  pubOf : List Nat → List Nat
  addrOf : List Nat → List Nat
  checksum : List Nat → List Char

/-- Modelled from the spec: the eth-keys `PrivateKey` constructor validates
its input (this validation lives in the external library, absent from
`src/`): the key bytes must be exactly 32 bytes whose value is nonzero and
below the curve order, otherwise construction fails. -/
def keys_PrivateKey (bs : List Nat) : Except PyError (List Nat) :=
  if bs.length = 32 ∧ 0 < bytesToNatBE bs ∧ bytesToNatBE bs < SECP256K1_ORDER then
    .ok bs
  else
    .error .validationError

/-- The checksum-cased address of the key `pk`:
`to_checksum_address(private_key.public_key.to_address())`. -/
def addressOfKey (C : EthCrypto) (pk : List Nat) : List Char :=
  C.checksum (C.addrOf (C.pubOf pk))

/-- The validator record built for loop index `i` (0-based; `index` is
`i + 1`) from the validated private key `pk`. -/
def mkValidator (C : EthCrypto) (i : Nat) (pk : List Nat) : Validator :=
  { index := i + 1
    address := addressOfKey C pk
    private_key := '0' :: 'x' :: bytesToHex pk
    public_key := '0' :: 'x' :: bytesToHex (C.pubOf pk) }

/-- The generation loop: `k` iterations remaining, current loop index `i`;
`rng i` is the `i`-th draw of `os.urandom(32)`. -/
def generateLoop (C : EthCrypto) (rng : Nat → List Nat) : Nat → Nat → Except PyError (List Validator)
  | _, 0 => .ok []
  | i, k + 1 => do
      let pk ← keys_PrivateKey (rng i)
      let rest ← generateLoop C rng (i + 1) k
      pure (mkValidator C i pk :: rest)

/-- `generate_validator_keys(num_validators)`: one fresh key per slot,
indices `1..n`. The random source is threaded explicitly (`rng i` is the
`i`-th `os.urandom(32)` call). -/
def generate_validator_keys (C : EthCrypto) (rng : Nat → List Nat) (n : Nat) :
    Except PyError (List Validator) :=
  generateLoop C rng 0 n

/-! ## Extension-field encoder (`create_extra_data`) -/

/-- The fixed leading hex text of the extraData string:
`"0xf87ea0" + 64 zero digits + "f854"` (76 characters). -/
def extraDataPrefix : List Char :=
  "0xf87ea00000000000000000000000000000000000000000000000000000000000000000f854".data

/-- The fixed trailing hex text of the extraData string (14 characters). -/
def extraDataSuffix : List Char := "808400000000c0".data

/-- `create_extra_data(validator_addresses)`: string concatenation of the
fixed prefix, `"94" + addr[2:].lower()` per address, and the fixed suffix. -/
def create_extra_data (validator_addresses : List (List Char)) : List Char :=
  extraDataPrefix ++
    validator_addresses.flatMap (fun addr => '9' :: '4' :: (addr.drop 2).map Char.toLower) ++
    extraDataSuffix

/-! ## Extension-field decoder

The repository only encodes; the decoder is the consensus layer's RLP
reader. -/

/-- Modelled from the spec: parse `k` validator entries from the payload of
the inner RLP list — each entry is the single-byte string header `0x94`
followed by 20 address bytes. The consensus layer's decoder is absent from
`src/` (the repository only encodes); this follows the spec's description of
the length-prefixed nested-list encoding. -/
def parse_addresses : Nat → List Nat → Option (List (List Nat))
  | 0, bs => if bs.isEmpty then some [] else none
  | k + 1, bs =>
    match bs with
    | b :: rest =>
        if b = 0x94 ∧ 20 ≤ rest.length then
          (parse_addresses k (rest.drop 20)).map ((rest.take 20) :: ·)
        else none
    | [] => none

/-- Modelled from the spec: decode of the part following the 32-byte vanity
string — the inner validator-list header `0xf8 len`, the validator entries,
then the empty vote `80`, the 4-byte round number `84 00000000` and the
empty seals list `c0`. The inner length prefix is checked against the
actual content, as an RLP reader must. -/
def decode_inner : List Nat → Option (List (List Nat))
  | c0 :: c1 :: rest3 =>
      if c0 = 0xf8 ∧ c1 ≤ rest3.length ∧
          rest3.drop c1 = [0x80, 0x84, 0, 0, 0, 0, 0xc0] then
        parse_addresses (c1 / 21) (rest3.take c1)
      else none
  | _ => none

/-- Modelled from the spec: structural RLP decode of the extension-field
byte string — outer list header `0xf8 len` (checked against the actual
remaining length), 32-byte vanity string header `0xa0`, then the inner
validator list and trailing fields via `decode_inner`. Absent from `src/`;
faithful to the spec's "length-prefixed nested-list binary encoding". -/
def decode_extra_data_bytes : List Nat → Option (List (List Nat))
  | b0 :: b1 :: v :: rest2 =>
      if b0 = 0xf8 ∧ (v :: rest2).length = b1 ∧ v = 0xa0 ∧ 32 ≤ rest2.length then
        decode_inner (rest2.drop 32)
      else none
  | _ => none

/-- Modelled from the spec: full decode of the `0x`-prefixed hex blob
stored in the genesis `extraData` field. -/
def decode_extra_data (s : List Char) : Option (List (List Nat)) :=
  match s with
  | '0' :: 'x' :: hexpart => (hexToBytes hexpart).bind decode_extra_data_bytes
  | _ => none

/-- The 20 address bytes denoted by a `0x`-prefixed (possibly
checksum-cased) hex address string. -/
def address_bytes (s : List Char) : List Nat :=
  (hexToBytes ((s.drop 2).map Char.toLower)).getD []

/-- A well-formed `0x`-prefixed hex address string of 20 bytes: lower-casing
it yields `"0x"` followed by the lower-case hex of some 20-byte string. -/
def AddrOk (s : List Char) : Prop :=
  ∃ bs : List Nat, bs.length = 20 ∧ ValidBytes bs ∧
    s.map Char.toLower = '0' :: 'x' :: bytesToHex bs

/-! ## Genesis construction (`create_genesis_config`, `save_node_files`) -/

/-- The genesis JSON object. `alloc` is a Python dict keyed by lower-case
un-prefixed address hex; each value is the `{"balance": ...}` record,
modelled by the balance string. Insertion order is kept, as Python dicts
do. -/
structure Genesis where
  chainId : Nat
  berlinBlock : Nat
  londonBlock : Nat
  shanghaiTime : Nat
  zeroBaseFee : Bool
  consensus : List Char
  blockperiodseconds : Nat
  epochlength : Nat
  requesttimeoutseconds : Nat
  nonce : List Char
  timestamp : List Char
  gasLimit : List Char
  difficulty : List Char
  contractSizeLimit : Nat
  mixHash : List Char
  coinbase : List Char
  alloc : List (List Char × List Char)
  extraData : List Char
deriving DecidableEq, Repr

/-- `create_genesis_config(consensus, block_period)`. -/
def create_genesis_config (consensus : List Char) (block_period : Nat) : Genesis :=
  { chainId := CHAIN_ID
    berlinBlock := 0
    londonBlock := 0
    shanghaiTime := 0
    zeroBaseFee := true
    consensus := consensus
    blockperiodseconds := block_period
    epochlength := 30000
    requesttimeoutseconds := 4
    nonce := "0x0".data
    timestamp := "0x58ee40ba".data
    gasLimit := "0x1FFFFFFFFFFFFF".data
    difficulty := "0x1".data
    contractSizeLimit := 99999999999
    mixHash := "0x63746963616c2062797a616e74696e65206661756c7420746f6c6572616e6365".data
    coinbase := "0x0000000000000000000000000000000000000000".data
    alloc := []
    extraData := "0x".data }

/-- Python dict assignment `d[k] = v` on an insertion-ordered mapping:
overwrite if the key is present, else append. -/
def dictInsert (d : List (List Char × List Char)) (k v : List Char) :
    List (List Char × List Char) :=
  if d.any (fun p => p.1 = k) then
    d.map (fun p => if p.1 = k then (p.1, v) else p)
  else
    d ++ [(k, v)]

/-- The alloc key used for a validator: `v["address"][2:].lower()`. -/
def allocKey (v : Validator) : List Char :=
  (v.address.drop 2).map Char.toLower

/-- The pure genesis value `save_node_files` serializes: start from
`create_genesis_config(consensus)` (default block period 2), insert one
balance entry per validator, then set `extraData` from the validators'
addresses in list order. -/
def build_genesis (consensus : List Char) (validators : List Validator) : Genesis :=
  let g := create_genesis_config consensus 2
  let g := { g with
    alloc := validators.foldl (fun d v => dictInsert d (allocKey v) INITIAL_BALANCE) g.alloc }
  { g with extraData := create_extra_data (validators.map (·.address)) }

/-! ## File artifacts written by `save_node_files` -/

/-- The enode URL template of `save_node_files` (the per-node `enode`
file): `f"enode://{v['public_key'][2:]}@{NODE_IPS[v['index']-1]}:30303"`. -/
def save_enode (pubhex ip : List Char) : List Char :=
  "enode://".data ++ pubhex ++ ['@'] ++ ip ++ ":30303".data

/-- The enode URL template of `create_docker_compose_files` (the
`--bootnodes` flag value):
`f"enode://{bootnode_pubkey}@{NODE_IPS[0]}:30303"` — transcribed separately
from `save_enode` because the source writes the template twice. -/
def bootnode_enode (pubhex ip : List Char) : List Char :=
  "enode://".data ++ pubhex ++ ['@'] ++ ip ++ ":30303".data

/-- One artifact written during a run. -/
inductive Artifact where
  | genesisFile (g : Genesis)
  | keyFile (idx : Nat) (content : List Char)
  | pubFile (idx : Nat) (content : List Char)
  | addressFile (idx : Nat) (content : List Char)
  | enodeFile (idx : Nat) (content : List Char)
deriving DecidableEq, Repr

/-- The per-validator writing loop of `save_node_files`: for each validator,
the key, public-key and address files are written, then the enode file —
whose content subscripts `NODE_IPS[v["index"] - 1]` and raises `IndexError`
when the table is too short, stopping the run with the earlier files
already written. -/
def saveLoop (ips : List (List Char)) :
    List Validator → List Artifact → List Artifact × Option PyError
  | [], acc => (acc, none)
  | v :: rest, acc =>
      let acc := acc ++ [.keyFile v.index (v.private_key.drop 2),
                         .pubFile v.index v.public_key,
                         .addressFile v.index v.address]
      match ips[v.index - 1]? with
      | none => (acc, some .indexError)
      | some ip =>
          saveLoop ips rest
            (acc ++ [.enodeFile v.index (save_enode (v.public_key.drop 2) ip)])

/-- `save_node_files(validators, consensus)` as a trace of written artifacts
plus the error aborting the run, if any: the genesis file is written first,
then each node's files in index order. -/
def save_node_files (ips : List (List Char)) (validators : List Validator)
    (consensus : List Char) : List Artifact × Option PyError :=
  saveLoop ips validators [Artifact.genesisFile (build_genesis consensus validators)]

/-! ## Deployment descriptors (`create_docker_compose_files`) -/

/-- The deployment-relevant content of one docker-compose file: node index,
role, the volume mount of the node's own private-key file (validators
only), the `--p2p-host` value, and the `--bootnodes` value (absent for the
bootstrap node). -/
structure ComposeDesc where
  nodeIndex : Nat
  isValidator : Bool
  keyVolume : Option (List Char)
  p2pHost : List Char
  bootnodes : Option (List Char)
deriving DecidableEq, Repr

/-- The key-file volume mount string `../config/keys/node<i>/key` of node
`i`'s compose file. -/
def keyVolumePath (i : Nat) : List Char :=
  "../config/keys/node".data ++ (Nat.repr i).data ++ "/key".data

/-- The compose descriptor of validator `v` hosted at `ip`:
`bootnode_line` is empty iff `v["index"] == 1`. -/
def validatorDesc (v : Validator) (ip bootnodeEnode : List Char) : ComposeDesc :=
  { nodeIndex := v.index
    isValidator := true
    keyVolume := some (keyVolumePath v.index)
    p2pHost := ip
    bootnodes := if v.index = 1 then none else some bootnodeEnode }

/-- The compose descriptor of the RPC-only node (index `NUM_TOTAL_NODES`):
no key volume, always carries the bootnode reference. -/
def rpcDesc (ip bootnodeEnode : List Char) : ComposeDesc :=
  { nodeIndex := NUM_TOTAL_NODES
    isValidator := false
    keyVolume := none
    p2pHost := ip
    bootnodes := some bootnodeEnode }

/-- The per-validator loop of `create_docker_compose_files`:
`NODE_IPS[i - 1]` raises `IndexError` when out of range. -/
def composeLoop (ips : List (List Char)) (bootnodeEnode : List Char) :
    List Validator → Except PyError (List ComposeDesc)
  | [] => .ok []
  | v :: rest =>
      match ips[v.index - 1]? with
      | none => .error .indexError
      | some ip => do
          let ds ← composeLoop ips bootnodeEnode rest
          pure (validatorDesc v ip bootnodeEnode :: ds)

/-- `create_docker_compose_files(validators, consensus)`: computes the
bootnode enode from `validators[0]` and `NODE_IPS[0]` (an `IndexError` when
either is missing), emits one compose file per validator, then the RPC
node's compose file (index `NUM_TOTAL_NODES`, host
`NODE_IPS[NUM_TOTAL_NODES - 1]`). -/
def create_docker_compose_files (ips : List (List Char)) :
    List Validator → Except PyError (List ComposeDesc)
  | [] => .error .indexError
  | v0 :: rest =>
      match ips[0]? with
      | none => .error .indexError
      | some ip0 =>
          let bootnodeEnode := bootnode_enode (v0.public_key.drop 2) ip0
          do
            let ds ← composeLoop ips bootnodeEnode (v0 :: rest)
            match ips[NUM_TOTAL_NODES - 1]? with
            | none => .error .indexError
            | some ipR => pure (ds ++ [rpcDesc ipR bootnodeEnode])

/-- The key-validity condition the eth-keys library enforces. -/
def KeyOk (bs : List Nat) : Prop :=
  bs.length = 32 ∧ 0 < bytesToNatBE bs ∧ bytesToNatBE bs < SECP256K1_ORDER

/-- A concrete stand-in for the external elliptic-curve library, used to
run the pipeline on explicit inputs. -/
def C0 : EthCrypto :=
  { pubOf := fun bs => bs ++ bs
    addrOf := fun pub => pub.take 20
    checksum := fun bs => '0' :: 'x' :: bytesToHex bs }

/-- A concrete random source: the `i`-th draw is the 32-byte string
`(i+1) 00 … 00`. -/
def rng0 : Nat → List Nat := fun i => (i + 1) :: List.replicate 31 0

/-- A concrete validator record used to evaluate the claims on explicit
inputs. -/
def wValidator (i b : Nat) : Validator :=
  { index := i
    address := '0' :: 'x' :: bytesToHex (List.replicate 20 b)
    private_key := '0' :: 'x' :: bytesToHex (List.replicate 32 b)
    public_key := '0' :: 'x' :: bytesToHex (List.replicate 64 b) }

/-- Four concrete validators with distinct addresses, indices 1..4. -/
def wValidators : List Validator :=
  [wValidator 1 0x11, wValidator 2 0x22, wValidator 3 0x33, wValidator 4 0x44]

/-- The same four validators with every private key replaced. -/
def wValidatorsHidden : List Validator :=
  wValidators.map (fun v => { v with private_key := "0xsecret".data })

/-- Byte form of the fixed extraData prefix: outer list header `f8 7e`,
vanity header `a0` + 32 zero bytes, inner list header `f8 54`. -/
def prefixBytes : List Nat :=
  0xf8 :: 0x7e :: 0xa0 :: (List.replicate 32 0 ++ [0xf8, 0x54])

/-- Byte form of the fixed extraData suffix: empty vote `80`, round number
`84 00000000`, empty seals list `c0`. -/
def suffixBytes : List Nat := [0x80, 0x84, 0, 0, 0, 0, 0xc0]

/-! ### Hex round-trip lemmas -/

theorem hexDigit_roundtrip : ∀ d, d < 16 → hexDigitToNat (natToHexDigit d) = some d := by
  decide

theorem toLower_natToHexDigit : ∀ d, d < 16 →
    (natToHexDigit d).toLower = natToHexDigit d := by
  decide

theorem hexToBytes_byteToHex (b : Nat) (hb : b < 256) (rest : List Char) :
    hexToBytes (byteToHex b ++ rest) = (hexToBytes rest).map (b :: ·) := by
  have h1 : b / 16 < 16 := Nat.div_lt_of_lt_mul (by omega)
  have h2 : b % 16 < 16 := Nat.mod_lt _ (by omega)
  have hb' : 16 * (b / 16) + b % 16 = b := by omega
  show hexToBytes (natToHexDigit (b / 16) :: natToHexDigit (b % 16) :: rest) = _
  rw [hexToBytes, hexDigit_roundtrip _ h1, hexDigit_roundtrip _ h2]
  cases hexToBytes rest <;> simp [hb']

theorem hexToBytes_bytesToHex (bs : List Nat) (h : ValidBytes bs) (rest : List Char) :
    hexToBytes (bytesToHex bs ++ rest) = (hexToBytes rest).map (bs ++ ·) := by
  induction bs with
  | nil =>
      show hexToBytes rest = _
      cases hexToBytes rest <;> rfl
  | cons b t ih =>
      have hb : b < 256 := h b (by simp)
      have ht : ValidBytes t := fun x hx => h x (by simp [hx])
      show hexToBytes (byteToHex b ++ (bytesToHex t ++ rest)) = _
      rw [hexToBytes_byteToHex b hb, ih ht]
      cases hexToBytes rest <;> rfl

/-! ## Decode/encode correspondence lemmas -/

theorem extraDataPrefix_eq : extraDataPrefix = '0' :: 'x' :: bytesToHex prefixBytes := by
  decide

theorem extraDataSuffix_eq : extraDataSuffix = bytesToHex suffixBytes := by
  decide

theorem prefixBytes_valid : ValidBytes prefixBytes := by
  unfold ValidBytes; decide

theorem suffixBytes_valid : ValidBytes suffixBytes := by
  unfold ValidBytes; decide

theorem hexToBytes_nil : hexToBytes [] = some [] := rfl

theorem address_bytes_spec {a : List Char} (h : AddrOk a) :
    (a.drop 2).map Char.toLower = bytesToHex (address_bytes a) ∧
      (address_bytes a).length = 20 ∧ ValidBytes (address_bytes a) := by
  obtain ⟨bs, hlen, hvb, heq⟩ := h
  have hdrop : (a.drop 2).map Char.toLower = bytesToHex bs := by
    have := congrArg (List.drop 2) heq
    simpa [List.map_drop] using this
  have hbytes : address_bytes a = bs := by
    unfold address_bytes
    rw [hdrop]
    have := hexToBytes_bytesToHex bs hvb []
    simp only [List.append_nil] at this
    simp [this, hexToBytes_nil]
  rw [hbytes]
  exact ⟨hdrop, hlen, hvb⟩

/-- The per-address chunk of the extraData hex text is the hex rendering of
the `94`-prefixed address bytes. -/
theorem chunk_eq {a : List Char} (h : AddrOk a) :
    '9' :: '4' :: (a.drop 2).map Char.toLower = bytesToHex (0x94 :: address_bytes a) := by
  obtain ⟨hdrop, _, _⟩ := address_bytes_spec h
  rw [hdrop]
  rfl

/-- The whole address section of the extraData hex text is the hex rendering
of the concatenated `94`-prefixed address byte chunks. -/
theorem body_eq {addrs : List (List Char)} (h : ∀ a ∈ addrs, AddrOk a) :
    addrs.flatMap (fun addr => '9' :: '4' :: (addr.drop 2).map Char.toLower) =
      bytesToHex (addrs.flatMap (fun a => 0x94 :: address_bytes a)) := by
  induction addrs with
  | nil => rfl
  | cons a t ih =>
      have ha : AddrOk a := h a (by simp)
      have ht : ∀ x ∈ t, AddrOk x := fun x hx => h x (by simp [hx])
      simp only [List.flatMap_cons]
      rw [ih ht, chunk_eq ha]
      simp [bytesToHex]

theorem bodyBytes_valid {addrs : List (List Char)} (h : ∀ a ∈ addrs, AddrOk a) :
    ValidBytes (addrs.flatMap (fun a => 0x94 :: address_bytes a)) := by
  intro b hb
  simp only [List.mem_flatMap] at hb
  obtain ⟨a, ha, hmem⟩ := hb
  rcases List.mem_cons.mp hmem with rfl | hmem'
  · omega
  · exact (address_bytes_spec (h a ha)).2.2 b hmem'

theorem bodyBytes_length {addrs : List (List Char)} (h : ∀ a ∈ addrs, AddrOk a) :
    (addrs.flatMap (fun a => 0x94 :: address_bytes a)).length = 21 * addrs.length := by
  induction addrs with
  | nil => rfl
  | cons a t ih =>
      have ha := (address_bytes_spec (h a (by simp))).2.1
      have ht : ∀ x ∈ t, AddrOk x := fun x hx => h x (by simp [hx])
      simp only [List.flatMap_cons, List.length_append, List.length_cons, ih ht, ha,
        List.length_cons]
      ring

/-- One full hex decoding of the encoder's output. -/
theorem hexToBytes_create_extra_data {addrs : List (List Char)}
    (h : ∀ a ∈ addrs, AddrOk a) :
    ∃ hexpart, create_extra_data addrs = '0' :: 'x' :: hexpart ∧
      hexToBytes hexpart =
        some (prefixBytes ++ (addrs.flatMap (fun a => 0x94 :: address_bytes a) ++ suffixBytes)) := by
  refine ⟨bytesToHex prefixBytes ++
    (addrs.flatMap (fun addr => '9' :: '4' :: (addr.drop 2).map Char.toLower) ++
      extraDataSuffix), ?_, ?_⟩
  · unfold create_extra_data
    rw [extraDataPrefix_eq]
    simp [List.append_assoc]
  · rw [body_eq h, extraDataSuffix_eq,
      hexToBytes_bytesToHex _ prefixBytes_valid,
      hexToBytes_bytesToHex _ (bodyBytes_valid h)]
    have := hexToBytes_bytesToHex suffixBytes suffixBytes_valid []
    simp only [List.append_nil] at this
    simp [this, hexToBytes_nil]

theorem parse_addresses_flatMap (bs : List (List Nat))
    (h : ∀ b ∈ bs, b.length = 20) :
    parse_addresses bs.length (bs.flatMap (fun a => 0x94 :: a)) = some bs := by
  induction bs with
  | nil => rfl
  | cons a t ih =>
      have ha : a.length = 20 := h a (by simp)
      have ht : ∀ x ∈ t, x.length = 20 := fun x hx => h x (by simp [hx])
      simp only [List.flatMap_cons, List.length_cons, List.cons_append]
      show parse_addresses (t.length + 1) (0x94 :: (a ++ t.flatMap (fun a => 0x94 :: a))) = _
      rw [parse_addresses]
      have hge : 20 ≤ (a ++ t.flatMap (fun a => 0x94 :: a)).length := by
        simp [ha]
      rw [if_pos ⟨rfl, hge⟩, List.take_left' ha, List.drop_left' ha, ih ht]
      rfl

/-- Structural decode of a well-shaped blob: the outer and inner headers
are accepted exactly when the validator section has the 84 bytes the fixed
prefixes promise, and what remains is the address parse. -/
theorem decode_bytes_structural (B : List Nat) (hB : B.length = 84) :
    decode_extra_data_bytes (prefixBytes ++ (B ++ suffixBytes)) = parse_addresses 4 B := by
  have hsplit : prefixBytes ++ (B ++ suffixBytes) =
      0xf8 :: 0x7e :: 0xa0 ::
        (List.replicate 32 0 ++ ([0xf8, 0x54] ++ (B ++ suffixBytes))) := by
    simp [prefixBytes]
  rw [hsplit, decode_extra_data_bytes]
  rw [if_pos ⟨rfl, by simp [suffixBytes, hB], rfl, by simp⟩]
  rw [List.drop_left' (by simp : (List.replicate 32 (0 : Nat)).length = 32)]
  show decode_inner (0xf8 :: 0x54 :: (B ++ suffixBytes)) = _
  rw [decode_inner]
  rw [if_pos ⟨rfl, by simp [suffixBytes, hB], by rw [List.drop_left' hB]; rfl⟩]
  rw [List.take_left' hB]

/-- Round trip at the hard-coded validator count: decoding the encoder's
output recovers the four encoded addresses, as byte values, in order. -/
theorem decode_create_extra_data {addrs : List (List Char)}
    (hlen : addrs.length = 4) (h : ∀ a ∈ addrs, AddrOk a) :
    decode_extra_data (create_extra_data addrs) = some (addrs.map address_bytes) := by
  obtain ⟨hexpart, heq, hbytes⟩ := hexToBytes_create_extra_data h
  rw [heq]
  show (hexToBytes hexpart).bind decode_extra_data_bytes = _
  rw [hbytes, Option.some_bind]
  have hblen : (addrs.flatMap (fun a => 0x94 :: address_bytes a)).length = 84 := by
    rw [bodyBytes_length h, hlen]
  rw [decode_bytes_structural _ hblen]
  have hbody : addrs.flatMap (fun a => 0x94 :: address_bytes a) =
      (addrs.map address_bytes).flatMap (fun b => 0x94 :: b) := by
    rw [List.flatMap_map]
  rw [hbody, show (4 : Nat) = (addrs.map address_bytes).length by simp [hlen]]
  exact parse_addresses_flatMap _ (by
    intro b hb
    obtain ⟨a, ha, rfl⟩ := List.mem_map.mp hb
    exact (address_bytes_spec (h a ha)).2.1)

/-- The blob of any other address count is rejected by the decoder: the
hard-coded outer length prefix `7e` no longer matches the content. -/
theorem decode_bytes_wrong_length (B : List Nat) (hB : B.length ≠ 84) :
    decode_extra_data_bytes (prefixBytes ++ (B ++ suffixBytes)) = none := by
  have hsplit : prefixBytes ++ (B ++ suffixBytes) =
      0xf8 :: 0x7e :: 0xa0 ::
        (List.replicate 32 0 ++ ([0xf8, 0x54] ++ (B ++ suffixBytes))) := by
    simp [prefixBytes]
  rw [hsplit, decode_extra_data_bytes, if_neg]
  rintro ⟨-, h2, -, -⟩
  simp [suffixBytes] at h2
  omega

/-- Decoding the encoder's output fails whenever the address count is not
the hard-coded four. -/
theorem decode_create_extra_data_ne {addrs : List (List Char)}
    (hlen : addrs.length ≠ 4) (h : ∀ a ∈ addrs, AddrOk a) :
    decode_extra_data (create_extra_data addrs) = none := by
  obtain ⟨hexpart, heq, hbytes⟩ := hexToBytes_create_extra_data h
  rw [heq]
  show (hexToBytes hexpart).bind decode_extra_data_bytes = _
  rw [hbytes, Option.some_bind]
  exact decode_bytes_wrong_length _ (by rw [bodyBytes_length h]; omega)

/-! ## Loop characterizations -/

theorem keys_PrivateKey_ok {bs : List Nat} (h : KeyOk bs) :
    keys_PrivateKey bs = .ok bs := by
  unfold keys_PrivateKey
  exact if_pos h

theorem keys_PrivateKey_ok_iff {bs pk : List Nat} :
    keys_PrivateKey bs = .ok pk ↔ KeyOk bs ∧ pk = bs := by
  unfold keys_PrivateKey KeyOk
  split <;> rename_i h
  · constructor
    · rintro h'; cases h'; exact ⟨h, rfl⟩
    · rintro ⟨-, rfl⟩; rfl
  · constructor
    · rintro ⟨⟩
    · rintro ⟨h', -⟩; exact absurd h' h

theorem generateLoop_ok (C : EthCrypto) (rng : Nat → List Nat) :
    ∀ (k i : Nat), (∀ j, j < k → KeyOk (rng (i + j))) →
      generateLoop C rng i k =
        .ok ((List.range k).map (fun j => mkValidator C (i + j) (rng (i + j)))) := by
  intro k
  induction k with
  | zero => intro i _; rfl
  | succ k ih =>
      intro i h
      have h0 : KeyOk (rng i) := by simpa using h 0 (by omega)
      have hrest : ∀ j, j < k → KeyOk (rng (i + 1 + j)) := by
        intro j hj
        have := h (j + 1) (by omega)
        simpa [Nat.add_assoc, Nat.add_comm 1 j] using this
      show (do
        let pk ← keys_PrivateKey (rng i)
        let rest ← generateLoop C rng (i + 1) k
        pure (mkValidator C i pk :: rest)) = _
      rw [keys_PrivateKey_ok h0, ih (i + 1) hrest]
      simp only [List.range_succ_eq_map, List.map_map, List.map_cons,
        Function.comp_def, Nat.add_assoc, Nat.add_comm 1]
      rfl

theorem generateLoop_ok_inv (C : EthCrypto) (rng : Nat → List Nat) :
    ∀ (k i : Nat) (vs : List Validator), generateLoop C rng i k = .ok vs →
      (∀ j, j < k → KeyOk (rng (i + j))) ∧
        vs = (List.range k).map (fun j => mkValidator C (i + j) (rng (i + j))) := by
  intro k
  induction k with
  | zero =>
      intro i vs h
      refine ⟨fun j hj => absurd hj (by omega), ?_⟩
      cases h; rfl
  | succ k ih =>
      intro i vs h
      rw [show generateLoop C rng i (k + 1) = (do
        let pk ← keys_PrivateKey (rng i)
        let rest ← generateLoop C rng (i + 1) k
        pure (mkValidator C i pk :: rest)) from rfl] at h
      cases hpk : keys_PrivateKey (rng i) with
      | error e => rw [hpk] at h; cases h
      | ok pk =>
          rw [hpk] at h
          obtain ⟨hok, rfl⟩ := keys_PrivateKey_ok_iff.mp hpk
          cases hrest : generateLoop C rng (i + 1) k with
          | error e => rw [hrest] at h; cases h
          | ok rest =>
              rw [hrest] at h
              obtain ⟨hall, hrest_eq⟩ := ih (i + 1) rest hrest
              cases h
              constructor
              · intro j hj
                match j with
                | 0 => simpa using hok
                | j + 1 =>
                    have := hall j (by omega)
                    simpa [Nat.add_assoc, Nat.add_comm 1 j] using this
              · rw [hrest_eq]
                simp [List.range_succ_eq_map, List.map_map, Function.comp_def,
                  Nat.add_assoc, Nat.add_comm 1]

/-- The saving loop only appends: everything already written stays
written. -/
theorem saveLoop_appends (ips : List (List Char)) :
    ∀ (vs : List Validator) (acc : List Artifact),
      ∃ rest, (saveLoop ips vs acc).1 = acc ++ rest := by
  intro vs
  induction vs with
  | nil => intro acc; exact ⟨[], by simp [saveLoop]⟩
  | cons v t ih =>
      intro acc
      rw [saveLoop]
      cases hip : ips[v.index - 1]? with
      | none => exact ⟨_, rfl⟩
      | some ip =>
          obtain ⟨rest, hrest⟩ := ih
            (acc ++ [.keyFile v.index (v.private_key.drop 2),
                     .pubFile v.index v.public_key,
                     .addressFile v.index v.address] ++
              [.enodeFile v.index (save_enode (v.public_key.drop 2) ip)])
          refine ⟨[.keyFile v.index (v.private_key.drop 2),
                   .pubFile v.index v.public_key,
                   .addressFile v.index v.address,
                   .enodeFile v.index (save_enode (v.public_key.drop 2) ip)] ++ rest, ?_⟩
          rw [hrest]
          simp

/-- The saving loop fails exactly when some validator's endpoint index is
out of the table's range, and the only error it raises is `IndexError`. -/
theorem saveLoop_error (ips : List (List Char)) :
    ∀ (vs : List Validator) (acc : List Artifact),
      ((saveLoop ips vs acc).2 = none ↔ ∀ v ∈ vs, v.index - 1 < ips.length) ∧
        ((saveLoop ips vs acc).2 = none ∨ (saveLoop ips vs acc).2 = some .indexError) := by
  intro vs
  induction vs with
  | nil => intro acc; simp [saveLoop]
  | cons v t ih =>
      intro acc
      rw [saveLoop]
      cases hip : ips[v.index - 1]? with
      | none =>
          have hge : ¬ v.index - 1 < ips.length := fun hlt => by
            rw [List.getElem?_eq_getElem hlt] at hip; cases hip
          refine ⟨⟨(by intro h; simp at h), fun h => absurd (h v (by simp)) hge⟩, Or.inr rfl⟩
      | some ip =>
          have hlt : v.index - 1 < ips.length := by
            by_contra hge
            rw [List.getElem?_eq_none_iff.mpr (by omega)] at hip
            cases hip
          obtain ⟨ih1, ih2⟩ := ih
            (acc ++ [.keyFile v.index (v.private_key.drop 2),
                     .pubFile v.index v.public_key,
                     .addressFile v.index v.address] ++
              [.enodeFile v.index (save_enode (v.public_key.drop 2) ip)])
          refine ⟨⟨fun h => ?_, fun h => ih1.mpr fun x hx => h x (by simp [hx])⟩, ih2⟩
          intro x hx
          rcases List.mem_cons.mp hx with rfl | hxt
          · exact hlt
          · exact ih1.mp h x hxt

/-! ### Compose loop characterization -/

theorem getElem?_eq_some_getD {α : Type _} [Inhabited α] {l : List α} {i : Nat}
    (h : i < l.length) : l[i]? = some (l.getD i default) := by
  rw [List.getElem?_eq_getElem h, List.getD_eq_getElem l default h]

theorem composeLoop_eq (ips : List (List Char)) (bE : List Char) :
    ∀ vs : List Validator, (∀ v ∈ vs, v.index - 1 < ips.length) →
      composeLoop ips bE vs =
        .ok (vs.map (fun v => validatorDesc v (ips.getD (v.index - 1) default) bE)) := by
  intro vs
  induction vs with
  | nil => intro _; rfl
  | cons v t ih =>
      intro h
      rw [composeLoop, getElem?_eq_some_getD (h v (by simp))]
      rw [ih fun x hx => h x (by simp [hx])]
      rfl

/-! ### Genesis allocation characterization -/

/-- Repeated dict assignment with fresh, pairwise-distinct keys appends one
entry per assignment, in order. -/
theorem foldl_dictInsert (B : List Char) :
    ∀ (ks : List (List Char)) (acc : List (List Char × List Char)),
      (∀ k ∈ ks, ∀ p ∈ acc, p.1 ≠ k) → ks.Nodup →
      ks.foldl (fun d k => dictInsert d k B) acc = acc ++ ks.map (fun k => (k, B)) := by
  intro ks
  induction ks with
  | nil => intro acc _ _; simp
  | cons k t ih =>
      intro acc hfresh hnodup
      have hnotin : ¬ acc.any (fun p => p.1 = k) := by
        simp only [List.any_eq_true, decide_eq_true_eq, not_exists]
        rintro p ⟨hp, hpk⟩
        exact hfresh k (by simp) p hp hpk
      show (t.foldl (fun d k => dictInsert d k B) (dictInsert acc k B)) = _
      rw [dictInsert, if_neg hnotin]
      rw [ih (acc ++ [(k, B)]) ?_ (List.Nodup.of_cons hnodup)]
      · simp
      · intro x hx p hp
        rcases List.mem_append.mp hp with hpa | hpk
        · exact hfresh x (by simp [hx]) p hpa
        · simp only [List.mem_singleton] at hpk
          subst hpk
          intro hkx
          have hxk : x = k := by simpa using hkx.symm
          exact (List.nodup_cons.mp hnodup).1 (hxk ▸ hx)

/-- The alloc mapping `save_node_files` builds, when the validators' alloc
keys are pairwise distinct: one entry per validator, in validator order,
each set to `INITIAL_BALANCE`. -/
theorem build_genesis_alloc (consensus : List Char) (vs : List Validator)
    (hnodup : (vs.map allocKey).Nodup) :
    (build_genesis consensus vs).alloc = vs.map (fun v => (allocKey v, INITIAL_BALANCE)) := by
  show vs.foldl (fun d v => dictInsert d (allocKey v) INITIAL_BALANCE) [] = _
  rw [show (vs.foldl (fun d v => dictInsert d (allocKey v) INITIAL_BALANCE) []) =
    ((vs.map allocKey).foldl (fun d k => dictInsert d k INITIAL_BALANCE) []) from
    (List.foldl_map allocKey (fun d k => dictInsert d k INITIAL_BALANCE) vs []).symm]
  rw [foldl_dictInsert INITIAL_BALANCE (vs.map allocKey) [] (by simp) hnodup]
  simp [List.map_map, Function.comp_def]

theorem build_genesis_extraData (consensus : List Char) (vs : List Validator) :
    (build_genesis consensus vs).extraData = create_extra_data (vs.map (·.address)) := rfl

/-- Full characterization of `create_docker_compose_files` on a nonempty
validator list and a long-enough endpoint table. -/
theorem create_docker_compose_eq (ip0 : List Char) (ips' : List (List Char))
    (v0 : Validator) (rest : List Validator)
    (hR : NUM_TOTAL_NODES - 1 < (ip0 :: ips').length)
    (hall : ∀ v ∈ v0 :: rest, v.index - 1 < (ip0 :: ips').length) :
    create_docker_compose_files (ip0 :: ips') (v0 :: rest) =
      .ok ((v0 :: rest).map (fun v =>
            validatorDesc v ((ip0 :: ips').getD (v.index - 1) default)
              (bootnode_enode (v0.public_key.drop 2) ip0)) ++
          [rpcDesc ((ip0 :: ips').getD (NUM_TOTAL_NODES - 1) default)
            (bootnode_enode (v0.public_key.drop 2) ip0)]) := by
  rw [create_docker_compose_files]
  simp only [List.getElem?_cons_zero]
  rw [composeLoop_eq _ _ _ hall, getElem?_eq_some_getD hR]
  rfl

/-! ## Witness material -/

theorem map_toLower_bytesToHex {bs : List Nat} (h : ValidBytes bs) :
    (bytesToHex bs).map Char.toLower = bytesToHex bs := by
  induction bs with
  | nil => rfl
  | cons b t ih =>
      have hb : b < 256 := h b (by simp)
      have ht : ValidBytes t := fun x hx => h x (by simp [hx])
      show ((byteToHex b).map Char.toLower) ++ ((bytesToHex t).map Char.toLower) =
        byteToHex b ++ bytesToHex t
      rw [ih ht]
      congr 1
      show [Char.toLower (natToHexDigit (b / 16)), Char.toLower (natToHexDigit (b % 16))] = _
      rw [toLower_natToHexDigit _ (Nat.div_lt_of_lt_mul (by omega)),
        toLower_natToHexDigit _ (Nat.mod_lt _ (by omega))]
      rfl

/-- Every `0x`-prefixed lower-case hex rendering of 20 bytes is a
well-formed address string. -/
theorem AddrOk_hexOf (bs : List Nat) (h20 : bs.length = 20) (hv : ValidBytes bs) :
    AddrOk ('0' :: 'x' :: bytesToHex bs) :=
  ⟨bs, h20, hv, by
    show Char.toLower '0' :: Char.toLower 'x' :: (bytesToHex bs).map Char.toLower = _
    rw [map_toLower_bytesToHex hv,
      show Char.toLower '0' = '0' by decide, show Char.toLower 'x' = 'x' by decide]⟩


/-! ## Claims -/

/-- C1 (counterexample): the round trip `decode(encode(addrs)) == addrs`
fails on a non-empty sequence of one 20-byte address — the hard-coded
length prefixes `f87e`/`f854` describe a four-address payload, so the
one-address blob is not decodable at all. -/
theorem C1_counterexample :
    decode_extra_data (create_extra_data
        ["0x1111111111111111111111111111111111111111".data]) ≠
      some [address_bytes "0x1111111111111111111111111111111111111111".data] := by
  decide

/-- C1 (amended): decoding the encoder's output yields exactly the original
address sequence precisely when the sequence has length four, the validator
count the length prefixes are hard-coded for; for every other length
(including every other non-empty one) the blob does not decode. -/
theorem C1_roundtrip_iff_four (addrs : List (List Char)) (h : ∀ a ∈ addrs, AddrOk a) :
    (addrs.length = 4 →
      decode_extra_data (create_extra_data addrs) = some (addrs.map address_bytes)) ∧
    (addrs.length ≠ 4 → decode_extra_data (create_extra_data addrs) = none) :=
  ⟨fun hlen => decode_create_extra_data hlen h,
   fun hlen => decode_create_extra_data_ne hlen h⟩

/-- C1 (witness): the amended round trip evaluated on four explicit
addresses. -/
theorem C1_witness :
    decode_extra_data (create_extra_data
        ['0' :: 'x' :: bytesToHex (List.replicate 20 0x11),
         '0' :: 'x' :: bytesToHex (List.replicate 20 0x22),
         '0' :: 'x' :: bytesToHex (List.replicate 20 0x33),
         '0' :: 'x' :: bytesToHex (List.replicate 20 0x44)]) =
      some (['0' :: 'x' :: bytesToHex (List.replicate 20 0x11),
             '0' :: 'x' :: bytesToHex (List.replicate 20 0x22),
             '0' :: 'x' :: bytesToHex (List.replicate 20 0x33),
             '0' :: 'x' :: bytesToHex (List.replicate 20 0x44)].map address_bytes) := by
  refine (C1_roundtrip_iff_four _ ?_).1 rfl
  intro a ha
  fin_cases ha <;>
    exact AddrOk_hexOf _ (by simp) (fun x hx => by simp [List.mem_replicate] at hx; omega)

/-- The length of the per-address section of the encoder's output. -/
theorem chunks_length {addrs : List (List Char)} (h : ∀ a ∈ addrs, a.length = 42) :
    (addrs.flatMap (fun addr => '9' :: '4' :: (addr.drop 2).map Char.toLower)).length
      = 42 * addrs.length := by
  induction addrs with
  | nil => rfl
  | cons a t ih =>
      have ha : a.length = 42 := h a (by simp)
      have ht := ih fun x hx => h x (by simp [hx])
      simp only [List.flatMap_cons, List.length_append, List.length_cons,
        List.length_map, List.length_drop, ha, ht]
      ring

theorem extraDataPrefix_length : extraDataPrefix.length = 76 := rfl

theorem extraDataSuffix_length : extraDataSuffix.length = 14 := rfl

/-- C10: the encoder is total and returns, for every address list of
length `n`, a hex string of exactly `90 + 42·n` characters whose first 76
characters and last 14 characters are the fixed prefix and suffix
constants — the length-prefix digits `f87e` and `f854` inside them do not
vary with `n`. -/
theorem C10_encoder_shape (addrs : List (List Char)) (h : ∀ a ∈ addrs, a.length = 42) :
    (create_extra_data addrs).length = 90 + 42 * addrs.length ∧
    (create_extra_data addrs).take 76 = extraDataPrefix ∧
    (create_extra_data addrs).drop (76 + 42 * addrs.length) = extraDataSuffix := by
  have hbody := chunks_length h
  refine ⟨?_, ?_, ?_⟩
  · rw [create_extra_data]
    simp only [List.length_append, hbody, extraDataPrefix_length, extraDataSuffix_length]
    omega
  · rw [create_extra_data, List.append_assoc]
    exact List.take_left' extraDataPrefix_length
  · rw [create_extra_data]
    refine List.drop_left' ?_
    rw [List.length_append, extraDataPrefix_length, hbody]

/-- C10 (witness): the shape theorem evaluated on a singleton address
list. -/
theorem C10_witness :
    (create_extra_data ["0xAbCdEf1111111111111111111111111111111111".data]).length
        = 90 + 42 * 1 ∧
      (create_extra_data ["0xAbCdEf1111111111111111111111111111111111".data]).take 76
        = extraDataPrefix := by
  have := C10_encoder_shape ["0xAbCdEf1111111111111111111111111111111111".data]
    (by intro a ha; simp at ha; subst ha; decide)
  exact ⟨by simpa using this.1, this.2.1⟩

/-- C6 (counterexample): on an empty address list the encoder does not
fail — GenesisBuilder still produces a genesis descriptor whose extension
field is the fixed 90-character blob. -/
theorem C6_counterexample :
    (build_genesis "ibft2".data []).extraData =
      "0xf87ea00000000000000000000000000000000000000000000000000000000000000000f854808400000000c0".data := by
  decide

/-- C6 (amended): the encoder never fails and performs no emptiness or
capacity check: on an empty address list it returns the fixed
prefix-plus-suffix blob, GenesisBuilder is not aborted and produces a
genesis descriptor with empty allocations embedding that blob — a blob
that does not decode to any validator list. -/
theorem C6_encoder_never_fails (c : List Char) :
    (build_genesis c []).extraData = extraDataPrefix ++ extraDataSuffix ∧
    (build_genesis c []).alloc = [] ∧
    decode_extra_data ((build_genesis c []).extraData) = none := by
  refine ⟨?_, rfl, ?_⟩
  · show create_extra_data [] = _
    rw [create_extra_data]
    simp
  · rw [build_genesis_extraData]
    exact decode_create_extra_data_ne (by simp) (by simp)

/-- C2: for a genesis built from a validator list of the configured count
with well-formed, pairwise-distinct addresses, the allocations hold exactly
one entry per validator in validator order, each set to `INITIAL_BALANCE`,
and the extension field decodes to exactly those validators' address bytes
in the same order (each allocation key being the hex of the corresponding
decoded address). -/
theorem C2_genesis_invariant (c : List Char) (vs : List Validator)
    (hlen : vs.length = NUM_VALIDATORS)
    (haddr : ∀ v ∈ vs, AddrOk v.address)
    (hnodup : (vs.map allocKey).Nodup) :
    (build_genesis c vs).alloc = vs.map (fun v => (allocKey v, INITIAL_BALANCE)) ∧
    decode_extra_data ((build_genesis c vs).extraData) =
      some (vs.map (fun v => address_bytes v.address)) ∧
    ∀ v ∈ vs, allocKey v = bytesToHex (address_bytes v.address) := by
  refine ⟨build_genesis_alloc c vs hnodup, ?_, ?_⟩
  · rw [build_genesis_extraData]
    have h4 : (vs.map (·.address)).length = 4 := by
      simp [hlen, NUM_VALIDATORS]
    have hok : ∀ a ∈ vs.map (·.address), AddrOk a := by
      intro a ha
      obtain ⟨v, hv, rfl⟩ := List.mem_map.mp ha
      exact haddr v hv
    rw [decode_create_extra_data h4 hok, List.map_map]
    rfl
  · intro v hv
    exact (address_bytes_spec (haddr v hv)).1

/-- C2 (witness): the genesis invariant evaluated on four explicit
validators. -/
theorem C2_witness :
    (build_genesis "ibft2".data wValidators).alloc =
      wValidators.map (fun v => (allocKey v, INITIAL_BALANCE)) ∧
    decode_extra_data ((build_genesis "ibft2".data wValidators).extraData) =
      some (wValidators.map (fun v => address_bytes v.address)) ∧
    ∀ v ∈ wValidators, allocKey v = bytesToHex (address_bytes v.address) :=
  C2_genesis_invariant "ibft2".data wValidators (by decide)
    (by
      intro v hv
      fin_cases hv <;>
        exact AddrOk_hexOf _ (by simp)
          (fun x hx => by simp [List.mem_replicate] at hx; omega))
    (by decide)

/-- C4: for every validator count `n ≥ 0` (in particular `n ≥ 1`), when
every random draw passes key validation and the drawn keys derive pairwise
distinct addresses, `generate_validator_keys` succeeds with exactly `n`
validator records carrying indices `1..n` in order, and their addresses are
pairwise distinct. -/
theorem C4_generate (C : EthCrypto) (rng : Nat → List Nat) (n : Nat)
    (hvalid : ∀ i, i < n → KeyOk (rng i))
    (hdist : ∀ i j, i < n → j < n → i ≠ j →
      addressOfKey C (rng i) ≠ addressOfKey C (rng j)) :
    ∃ vs, generate_validator_keys C rng n = .ok vs ∧
      vs.length = n ∧
      (∀ (k : Nat) (hk : k < vs.length), (vs.get ⟨k, hk⟩).index = k + 1) ∧
      (vs.map (·.address)).Nodup := by
  have hok := generateLoop_ok C rng n 0 (fun j hj => by simpa using hvalid j hj)
  refine ⟨_, hok, by simp, ?_, ?_⟩
  · intro k hk
    simp only [List.length_map, List.length_range] at hk
    simp [List.getElem_map, List.getElem_range, mkValidator]
  · rw [List.map_map]
    refine List.Nodup.map_on ?_ (List.nodup_range _)
    intro i hi j hj hij
    by_contra hne
    refine hdist i j (List.mem_range.mp hi) (List.mem_range.mp hj) hne ?_
    simpa [mkValidator, addressOfKey, Function.comp_def] using hij

/-- C4 (witness): generation evaluated with a concrete crypto stand-in and
a concrete random source for four validators. -/
theorem C4_witness :
    ∃ vs, generate_validator_keys C0 rng0 4 = .ok vs ∧
      vs.length = 4 ∧
      (∀ (k : Nat) (hk : k < vs.length), (vs.get ⟨k, hk⟩).index = k + 1) ∧
      (vs.map (·.address)).Nodup :=
  C4_generate C0 rng0 4
    (by
      intro i hi
      interval_cases i <;> exact ⟨by decide, by decide, by decide⟩)
    (by
      intro i j hi hj hij
      interval_cases i <;> interval_cases j <;>
        first
          | exact absurd rfl hij
          | decide)

/-- C7: every validator record a successful generation returns carries a
private key of exactly 32 bytes whose value is nonzero and below the curve
order (with address derived from it), and success entails that every draw
the run consumed passed that validation — an invalid draw is rejected, so
no returned identity can hold an invalid key. -/
theorem C7_key_validation (C : EthCrypto) (rng : Nat → List Nat) (n : Nat)
    (vs : List Validator) (h : generate_validator_keys C rng n = .ok vs) :
    (∀ v ∈ vs, ∃ pk, pk.length = 32 ∧ 0 < bytesToNatBE pk ∧
      bytesToNatBE pk < SECP256K1_ORDER ∧
      v.private_key = '0' :: 'x' :: bytesToHex pk ∧
      v.address = addressOfKey C pk) ∧
    (∀ i, i < n → KeyOk (rng i)) := by
  obtain ⟨hall, rfl⟩ := generateLoop_ok_inv C rng n 0 vs h
  constructor
  · intro v hv
    simp only [List.mem_map, List.mem_range] at hv
    obtain ⟨j, hj, rfl⟩ := hv
    obtain ⟨h32, hpos, hlt⟩ := hall j hj
    exact ⟨rng (0 + j), h32, hpos, hlt, rfl, rfl⟩
  · intro i hi
    simpa using hall i hi

/-- C7 (witness): the key-validity consequence evaluated on a concrete
successful two-validator generation. -/
theorem C7_witness :
    (∀ v ∈ (generate_validator_keys C0 rng0 2).toOption.getD [],
      ∃ pk, pk.length = 32 ∧ 0 < bytesToNatBE pk ∧
        bytesToNatBE pk < SECP256K1_ORDER ∧
        v.private_key = '0' :: 'x' :: bytesToHex pk ∧
        v.address = addressOfKey C0 pk) ∧
    (∀ i, i < 2 → KeyOk (rng0 i)) :=
  C7_key_validation C0 rng0 2 _ (by rfl)

/-- C3: in the run's descriptor set (validators plus the RPC observer),
exactly one descriptor — the first, belonging to the lowest-indexed
validator (node index 1) — carries no `--bootnodes` reference, and every
other descriptor's reference is the bootstrap node's enode URI. -/
theorem C3_bootstrap_topology (ips : List (List Char)) (validators : List Validator)
    (hne : validators ≠ [])
    (hidx : ∀ (k : Nat) (hk : k < validators.length),
      (validators.get ⟨k, hk⟩).index = k + 1)
    (hinrange : ∀ v ∈ validators, v.index - 1 < ips.length)
    (hR : NUM_TOTAL_NODES - 1 < ips.length) :
    ∃ ds, create_docker_compose_files ips validators = .ok ds ∧
      ds.length = validators.length + 1 ∧
      (∀ (j : Nat) (hj : j < ds.length), ((ds.get ⟨j, hj⟩).bootnodes = none ↔ j = 0)) ∧
      (∀ (j : Nat) (hj : j < ds.length), j ≠ 0 →
        (ds.get ⟨j, hj⟩).bootnodes =
          some (bootnode_enode (validators.headI.public_key.drop 2) ips.headI)) ∧
      (∀ h0 : 0 < ds.length,
        (ds.get ⟨0, h0⟩).nodeIndex = 1 ∧ (ds.get ⟨0, h0⟩).isValidator = true) := by
  obtain ⟨v0, vrest, rfl⟩ : ∃ v0 vrest, validators = v0 :: vrest := by
    cases validators with
    | nil => exact absurd rfl hne
    | cons a b => exact ⟨a, b, rfl⟩
  obtain ⟨ip0, ips', rfl⟩ : ∃ ip0 ips', ips = ip0 :: ips' := by
    cases ips with
    | nil => exact absurd hR (by simp)
    | cons a b => exact ⟨a, b, rfl⟩
  have hv0 : v0.index = 1 := hidx 0 (by simp)
  refine ⟨(v0 :: vrest).map (fun v =>
        validatorDesc v ((ip0 :: ips').getD (v.index - 1) default)
          (bootnode_enode (v0.public_key.drop 2) ip0)) ++
      [rpcDesc ((ip0 :: ips').getD (NUM_TOTAL_NODES - 1) default)
        (bootnode_enode (v0.public_key.drop 2) ip0)],
    create_docker_compose_eq ip0 ips' v0 vrest hR hinrange, by simp, ?_, ?_, ?_⟩
  · intro j hj
    simp only [List.get_eq_getElem]
    by_cases hjn : j < (v0 :: vrest).length
    · rw [List.getElem_append_left (by simpa using hjn), List.getElem_map]
      have hidxj : (v0 :: vrest)[j].index = j + 1 := by
        have := hidx j hjn
        simpa using this
      by_cases hj0 : j = 0
      · subst hj0
        simp [validatorDesc, hidxj, hv0]
      · simp [validatorDesc, hidxj, hj0]
    · have hjlen : (v0 :: vrest).length ≤ j := Nat.not_lt.mp hjn
      rw [List.getElem_append_right (by simpa using hjlen)]
      have hj0 : j ≠ 0 := by simp at hjlen ⊢; omega
      simp [rpcDesc, hj0]
  · intro j hj hj0
    simp only [List.get_eq_getElem]
    by_cases hjn : j < (v0 :: vrest).length
    · rw [List.getElem_append_left (by simpa using hjn), List.getElem_map]
      have hidxj : (v0 :: vrest)[j].index = j + 1 := by
        have := hidx j hjn
        simpa using this
      simp [validatorDesc, hidxj, hj0, List.headI]
    · have hjlen : (v0 :: vrest).length ≤ j := Nat.not_lt.mp hjn
      rw [List.getElem_append_right (by simpa using hjlen)]
      simp [rpcDesc, List.headI]
  · intro h0
    simp only [List.get_eq_getElem]
    rw [List.getElem_append_left (by simp), List.getElem_map]
    simp [validatorDesc, hv0]

/-- C3 (witness): the topology invariant evaluated on four explicit
validators against the default endpoint table. -/
theorem C3_witness :
    ∃ ds, create_docker_compose_files NODE_IPS wValidators = .ok ds ∧
      ds.length = wValidators.length + 1 ∧
      (∀ (j : Nat) (hj : j < ds.length), ((ds.get ⟨j, hj⟩).bootnodes = none ↔ j = 0)) ∧
      (∀ (j : Nat) (hj : j < ds.length), j ≠ 0 →
        (ds.get ⟨j, hj⟩).bootnodes =
          some (bootnode_enode (wValidators.headI.public_key.drop 2) NODE_IPS.headI)) ∧
      (∀ h0 : 0 < ds.length,
        (ds.get ⟨0, h0⟩).nodeIndex = 1 ∧ (ds.get ⟨0, h0⟩).isValidator = true) :=
  C3_bootstrap_topology NODE_IPS wValidators (by simp [wValidators])
    (by
      intro k hk
      have hk4 : k < 4 := by simpa [wValidators] using hk
      interval_cases k <;> rfl)
    (by decide) (by decide)

set_option maxRecDepth 4000 in
/-- C5 (counterexample): the claim's own scenario — four validators, one
observer, an endpoint table of only three entries. The run does fail with
an index error, but artifacts are produced before the failure: the genesis
file is already written. -/
theorem C5_counterexample :
    (save_node_files (NODE_IPS.take 3) wValidators "ibft2".data).2 =
        some PyError.indexError ∧
      Artifact.genesisFile (build_genesis "ibft2".data wValidators) ∈
        (save_node_files (NODE_IPS.take 3) wValidators "ibft2".data).1 := by
  constructor
  · decide
  · decide

/-- C5 (amended): when the endpoint table has fewer entries than some
validator's index requires, the run fails with an `IndexError` (the
topology failure) — but not before artifacts are written: the genesis file
is always among the artifacts already produced when the failure hits. -/
theorem C5_short_table (c : List Char) (ips : List (List Char))
    (validators : List Validator)
    (hshort : ∃ v ∈ validators, ips.length ≤ v.index - 1) :
    (save_node_files ips validators c).2 = some PyError.indexError ∧
      Artifact.genesisFile (build_genesis c validators) ∈
        (save_node_files ips validators c).1 := by
  constructor
  · obtain ⟨hiff, hor⟩ := saveLoop_error ips validators
      [Artifact.genesisFile (build_genesis c validators)]
    rcases hor with hnone | herr
    · obtain ⟨v, hv, hge⟩ := hshort
      exact absurd (hiff.mp hnone v hv) (by omega)
    · exact herr
  · obtain ⟨rest, hrest⟩ := saveLoop_appends ips validators
      [Artifact.genesisFile (build_genesis c validators)]
    show Artifact.genesisFile _ ∈ (saveLoop _ _ _).1
    rw [hrest]
    simp

/-- C5 (witness): the amended statement evaluated on a pipeline-generated
validator set and a three-entry table. -/
theorem C5_witness :
    (save_node_files (NODE_IPS.take 3)
        ((generate_validator_keys C0 rng0 4).toOption.getD []) "qbft".data).2 =
          some PyError.indexError ∧
      Artifact.genesisFile
          (build_genesis "qbft".data
            ((generate_validator_keys C0 rng0 4).toOption.getD [])) ∈
        (save_node_files (NODE_IPS.take 3)
          ((generate_validator_keys C0 rng0 4).toOption.getD []) "qbft".data).1 :=
  C5_short_table "qbft".data (NODE_IPS.take 3)
    ((generate_validator_keys C0 rng0 4).toOption.getD []) (by decide)

/-- When every validator's endpoint index is in range, every validator's
enode file — with the template content — is among the written artifacts. -/
theorem saveLoop_enode_mem (ips : List (List Char)) :
    ∀ (vs : List Validator) (acc : List Artifact),
      (∀ v ∈ vs, v.index - 1 < ips.length) →
      ∀ v ∈ vs,
        Artifact.enodeFile v.index
            (save_enode (v.public_key.drop 2) (ips.getD (v.index - 1) default)) ∈
          (saveLoop ips vs acc).1 := by
  intro vs
  induction vs with
  | nil => intro acc _ v hv; cases hv
  | cons w t ih =>
      intro acc hall v hv
      rw [saveLoop, getElem?_eq_some_getD (hall w (by simp))]
      rcases List.mem_cons.mp hv with rfl | hvt
      · obtain ⟨rest, hrest⟩ := saveLoop_appends ips t
          (acc ++ [.keyFile v.index (v.private_key.drop 2),
                   .pubFile v.index v.public_key,
                   .addressFile v.index v.address] ++
            [.enodeFile v.index (save_enode (v.public_key.drop 2)
              (ips.getD (v.index - 1) default))])
        rw [hrest]
        simp
      · exact ih _ (fun x hx => hall x (by simp [hx])) v hvt

/-- If the compose loop succeeds, every emitted descriptor's key volume is
the key path of its own node index. -/
theorem composeLoop_keyVolume (ips : List (List Char)) (bE : List Char) :
    ∀ (vs : List Validator) (ds : List ComposeDesc),
      composeLoop ips bE vs = .ok ds →
      ∀ d ∈ ds, d.keyVolume = some (keyVolumePath d.nodeIndex) := by
  intro vs
  induction vs with
  | nil =>
      intro ds h d hd
      cases h
      cases hd
  | cons v t ih =>
      intro ds h d hd
      rw [composeLoop] at h
      cases hip : ips[v.index - 1]? with
      | none => rw [hip] at h; cases h
      | some ip =>
          rw [hip] at h
          cases hrec : composeLoop ips bE t with
          | error e => rw [hrec] at h; cases h
          | ok ds' =>
              rw [hrec] at h
              cases h
              rcases List.mem_cons.mp hd with rfl | hd'
              · rfl
              · exact ih ds' hrec d hd'

/-- C8: every enode discovery URI written is exactly
`enode://<hex public key>@<host>:30303` for that node's key and endpoint;
the two separately written URI templates agree; and the bootstrap node's
own enode artifact content is byte-for-byte the `--bootnodes` value carried
by every other node's compose descriptor. -/
theorem C8_discovery_uri (c : List Char) (ips : List (List Char))
    (validators : List Validator)
    (hne : validators ≠ []) (hv0 : validators.headI.index = 1)
    (hinrange : ∀ v ∈ validators, v.index - 1 < ips.length)
    (hR : NUM_TOTAL_NODES - 1 < ips.length) :
    (∀ v ∈ validators,
      Artifact.enodeFile v.index
          ("enode://".data ++ (v.public_key.drop 2) ++ ['@'] ++
            (ips.getD (v.index - 1) default) ++ ":30303".data) ∈
        (save_node_files ips validators c).1) ∧
    (∀ p i, bootnode_enode p i = save_enode p i) ∧
    Artifact.enodeFile 1
        (save_enode (validators.headI.public_key.drop 2) ips.headI) ∈
      (save_node_files ips validators c).1 ∧
    ∃ ds, create_docker_compose_files ips validators = .ok ds ∧
      ∀ d ∈ ds, d.nodeIndex ≠ 1 →
        d.bootnodes = some (save_enode (validators.headI.public_key.drop 2) ips.headI) := by
  obtain ⟨v0, vrest, rfl⟩ : ∃ v0 vrest, validators = v0 :: vrest := by
    cases validators with
    | nil => exact absurd rfl hne
    | cons a b => exact ⟨a, b, rfl⟩
  obtain ⟨ip0, ips', rfl⟩ : ∃ ip0 ips', ips = ip0 :: ips' := by
    cases ips with
    | nil => exact absurd hR (by simp)
    | cons a b => exact ⟨a, b, rfl⟩
  have hmem := saveLoop_enode_mem (ip0 :: ips') (v0 :: vrest)
    [Artifact.genesisFile (build_genesis c (v0 :: vrest))] hinrange
  have hv0' : v0.index = 1 := by simpa using hv0
  refine ⟨fun v hv => hmem v hv, fun p i => rfl, ?_, ?_⟩
  · have := hmem v0 (by simp)
    rw [hv0'] at this
    simpa [List.headI, hv0'] using this
  · refine ⟨_, create_docker_compose_eq ip0 ips' v0 vrest hR hinrange, ?_⟩
    intro d hd hd1
    rcases List.mem_append.mp hd with hdv | hdr
    · obtain ⟨v, hv, rfl⟩ := List.mem_map.mp hdv
      have : v.index ≠ 1 := hd1
      simp [validatorDesc, bootnode_enode, save_enode, List.headI, this]
    · simp only [List.mem_singleton] at hdr
      subst hdr
      simp [rpcDesc, bootnode_enode, save_enode, List.headI]

/-- C8 (witness): the discovery-URI agreement evaluated on four explicit
validators against the default endpoint table. -/
theorem C8_witness :
    Artifact.enodeFile 1
        (save_enode (wValidators.headI.public_key.drop 2) NODE_IPS.headI) ∈
      (save_node_files NODE_IPS wValidators "ibft2".data).1 ∧
    ∃ ds, create_docker_compose_files NODE_IPS wValidators = .ok ds ∧
      ∀ d ∈ ds, d.nodeIndex ≠ 1 →
        d.bootnodes = some (save_enode (wValidators.headI.public_key.drop 2) NODE_IPS.headI) := by
  have := C8_discovery_uri "ibft2".data NODE_IPS wValidators
    (by simp [wValidators]) (by decide) (by decide) (by decide)
  exact ⟨this.2.2.1, this.2.2.2⟩

/-- A compose descriptor is a function of the validator's index alone (for
fixed host and bootnode reference). -/
theorem validatorDesc_congr {v v' : Validator} (h : v.index = v'.index)
    (ip bE : List Char) : validatorDesc v ip bE = validatorDesc v' ip bE := by
  simp [validatorDesc, h]

/-- The compose loop reads nothing from a validator but its index. -/
theorem composeLoop_congr (ips : List (List Char)) (bE : List Char) :
    ∀ (vs vs' : List Validator), vs.map (·.index) = vs'.map (·.index) →
      composeLoop ips bE vs = composeLoop ips bE vs' := by
  intro vs
  induction vs with
  | nil =>
      intro vs' h
      cases vs' with
      | nil => rfl
      | cons a b => simp at h
  | cons v t ih =>
      intro vs' h
      cases vs' with
      | nil => simp at h
      | cons v' t' =>
          simp only [List.map_cons, List.cons.injEq] at h
          obtain ⟨hidx, htail⟩ := h
          rw [composeLoop, composeLoop, hidx, ih t' htail]
          cases (composeLoop ips bE t') with
          | error e => cases hip : ips[v'.index - 1]? <;> rfl
          | ok ds =>
              cases hip : ips[v'.index - 1]? with
              | none => rfl
              | some ip => simp [validatorDesc_congr hidx]

/-- C9: no private key leaks out of its own node's key file. Replacing
every validator's private key (same indices, addresses and public keys)
leaves the genesis descriptor and every compose descriptor unchanged — the
genesis holds only addresses and structural constants, the descriptors
only indices, hosts and the bootstrap public key — and each validator
descriptor's key-file volume names exactly its own node index. -/
theorem C9_key_isolation (c : List Char) (ips : List (List Char))
    (vs vs' : List Validator)
    (hidx : vs.map (·.index) = vs'.map (·.index))
    (haddr : vs.map (·.address) = vs'.map (·.address))
    (hpub : vs.map (·.public_key) = vs'.map (·.public_key)) :
    build_genesis c vs = build_genesis c vs' ∧
    create_docker_compose_files ips vs = create_docker_compose_files ips vs' ∧
    (∀ ds, create_docker_compose_files ips vs = .ok ds →
      ∀ d ∈ ds, d.keyVolume = none ∨ d.keyVolume = some (keyVolumePath d.nodeIndex)) := by
  have hkeys : vs.map allocKey = vs'.map allocKey := by
    have hfac : ∀ (l : List Validator),
        l.map allocKey = (l.map (·.address)).map (fun s => (s.drop 2).map Char.toLower) := by
      intro l
      rw [List.map_map]
      rfl
    rw [hfac, hfac, haddr]
  have halloc : ∀ init,
      vs.foldl (fun d v => dictInsert d (allocKey v) INITIAL_BALANCE) init =
        vs'.foldl (fun d v => dictInsert d (allocKey v) INITIAL_BALANCE) init := by
    intro init
    rw [← List.foldl_map allocKey (fun d k => dictInsert d k INITIAL_BALANCE) vs init,
      ← List.foldl_map allocKey (fun d k => dictInsert d k INITIAL_BALANCE) vs' init,
      hkeys]
  refine ⟨?_, ?_, ?_⟩
  · simp only [build_genesis, Genesis.mk.injEq, haddr, halloc [], and_true, true_and]
    exact halloc _
  · cases vs with
    | nil =>
        cases vs' with
        | nil => rfl
        | cons a b => simp at hidx
    | cons v0 t =>
        cases vs' with
        | nil => simp at hidx
        | cons v0' t' =>
            have hpub0 : v0.public_key = v0'.public_key := by
              simpa using congrArg List.headI hpub
            cases ips with
            | nil => rfl
            | cons ip0 ips' =>
                rw [create_docker_compose_files, create_docker_compose_files]
                simp only [List.getElem?_cons_zero]
                rw [hpub0, composeLoop_congr (ip0 :: ips') _ (v0 :: t) (v0' :: t') hidx]
  · intro ds h d hd
    cases vs with
    | nil =>
        rw [create_docker_compose_files] at h
        cases h
    | cons v0 t =>
        cases ips with
        | nil =>
            rw [create_docker_compose_files] at h
            cases h
        | cons ip0 ips' =>
            rw [create_docker_compose_files] at h
            simp only [List.getElem?_cons_zero] at h
            cases hloop : composeLoop (ip0 :: ips')
                (bootnode_enode (v0.public_key.drop 2) ip0) (v0 :: t) with
            | error e => rw [hloop] at h; cases h
            | ok ds₁ =>
                rw [hloop] at h
                cases hR : (ip0 :: ips')[NUM_TOTAL_NODES - 1]? with
                | none => rw [hR] at h; cases h
                | some ipR =>
                    rw [hR] at h
                    cases h
                    rcases List.mem_append.mp hd with hd₁ | hdr
                    · exact Or.inr (composeLoop_keyVolume _ _ _ _ hloop d hd₁)
                    · simp only [List.mem_singleton] at hdr
                      subst hdr
                      exact Or.inl rfl

/-- C9 (witness): key isolation evaluated on two explicit validator sets
differing only in their private keys. -/
theorem C9_witness :
    build_genesis "ibft2".data wValidators =
      build_genesis "ibft2".data wValidatorsHidden ∧
    create_docker_compose_files NODE_IPS wValidators =
      create_docker_compose_files NODE_IPS wValidatorsHidden ∧
    (∀ ds, create_docker_compose_files NODE_IPS wValidators = .ok ds →
      ∀ d ∈ ds, d.keyVolume = none ∨ d.keyVolume = some (keyVolumePath d.nodeIndex)) :=
  C9_key_isolation "ibft2".data NODE_IPS wValidators wValidatorsHidden
    (by simp [wValidators, wValidatorsHidden])
    (by simp [wValidators, wValidatorsHidden])
    (by simp [wValidators, wValidatorsHidden])

end BesuSetup
